import Mathlib

/-!
Shallow embedding of the fixed-region dynamic memory allocator of
`src/kernel/dalloc.c` (functions `dinit`, `dalloc`, `coalesce_blocks`,
`dfree`), together with theorems settling the specification claims.

The heap is modelled as the address-ordered list of block headers; a
block's start address is the heap base plus the sum of the footprints
(`HEADER_SIZE + data_size`) of the blocks before it, which is exactly the
layout the C code maintains (headers are carved contiguously and `next`
always points to the block `HEADER_SIZE + data_size` bytes further).
`data_size` is a C `unsigned` (32-bit), so every arithmetic step of the
source is reproduced with an explicit reduction modulo `2 ^ 32`.
-/

namespace Dalloc

/-- `#define ALIGNMENT_SIZE 16` -/
def ALIGNMENT_SIZE : Nat := 16

/-- `#define HEADER_SIZE 16` -/
def HEADER_SIZE : Nat := 16

/-- Modulus of C `unsigned` (32-bit) arithmetic. -/
def U32 : Nat := 4294967296

/-- Modulus of C `uint64` (pointer) arithmetic. -/
def U64 : Nat := 18446744073709551616

/-- Modelled from the spec: `HEAP_SIZE` is defined in `param.h`, which is
not part of the sources; the spec's concrete scenario fixes the heap
extent at 1 MiB. -/
def HEAP_SIZE : Nat := 1048576

/-- The C expression `v & ~(ALIGNMENT_SIZE - 1)` = `v & ~15` on an already
reduced (`< 2^32`) value: clear the low four bits. -/
def mask16 (v : Nat) : Nat := v - v % 16

/-- `required_size` as computed by `dalloc`:
`required_size = size + HEADER_SIZE;`
`required_size = (required_size + (ALIGNMENT_SIZE - 1)) & ~(ALIGNMENT_SIZE - 1);`
both steps in 32-bit unsigned arithmetic. -/
def requiredSize (size : Nat) : Nat := mask16 (((size + HEADER_SIZE) % U32 + 15) % U32)

/-- The value written into the selected block on a split:
`curr->data_size = (size + (ALIGNMENT_SIZE - 1)) & ~(ALIGNMENT_SIZE - 1);`
in 32-bit unsigned arithmetic. -/
def allocDataSize (size : Nat) : Nat := mask16 ((size + 15) % U32)

/-- The exact-integer rounding `round_up(n, 16)` used by the spec's
arithmetic formulas. -/
def roundUp16 (n : Nat) : Nat := (n + 15) / 16 * 16

/-- One block header `struct dheader`: `data_size` (payload bytes,
excluding the header) and the `used` flag.  The `next` pointer is
represented by list order. -/
structure Block where
  data_size : Nat
  used : Bool
deriving DecidableEq, Repr

/-- Footprint of a block: header plus payload. -/
def Block.size (b : Block) : Nat := HEADER_SIZE + b.data_size

/-- Sum of `HEADER_SIZE + data_size` over all blocks of the heap. -/
def sumBlocks (l : List Block) : Nat := (l.map Block.size).sum

/-- Offset of the `i`-th block's header from the heap base. -/
def blockOffset (l : List Block) (i : Nat) : Nat := sumBlocks (l.take i)

/-- `dinit`: one free block of `data_size = HEAP_SIZE - HEADER_SIZE` with
no successor, at the heap base (the function is stated for a general
extent `hs`; the source instantiates `hs := HEAP_SIZE`). -/
def dinit (hs : Nat) : List Block := [⟨hs - HEADER_SIZE, false⟩]

/-- The first-fit test of `dalloc`'s scan:
`!curr->used && curr->data_size >= required_size`. -/
def fits (r : Nat) (b : Block) : Bool := !b.used && decide (r ≤ b.data_size)

/-- The scan-and-mutate loop of `dalloc`, carrying the offset of the
current block from the heap base.  On success it returns the payload
offset `(void*)(curr + 1)`, i.e. the selected block's offset plus
`HEADER_SIZE`, together with the updated heap.  The split branch carves a
new free header at `(char*)curr + required_size` holding the remaining
`curr->data_size - required_size` bytes and inheriting `curr->next`
(list order), and shrinks the selected block to `allocDataSize size`. -/
def dallocAux (size : Nat) : List Block → Nat → Option Nat × List Block
  | [], _ => (none, [])
  | b :: rest, off =>
    if fits (requiredSize size) b then
      if requiredSize size < b.data_size then
        (some (off + HEADER_SIZE),
          ⟨allocDataSize size, true⟩ ::
            ⟨b.data_size - requiredSize size, false⟩ :: rest)
      else
        (some (off + HEADER_SIZE), ⟨b.data_size, true⟩ :: rest)
    else
      let r := dallocAux size rest (off + HEADER_SIZE + b.data_size)
      (r.1, b :: r.2)

/-- `dalloc`: first-fit allocation.  Returns the payload offset from the
heap base (`none` when no block fits) and the resulting heap. -/
def dalloc (size : Nat) (l : List Block) : Option Nat × List Block :=
  dallocAux size l 0

/-- `coalesce_blocks`: a single pass that merges every adjacent pair of
free blocks, re-examining the merged block rather than advancing past it.
The merge `curr->data_size += curr->next->data_size + HEADER_SIZE` is a
32-bit unsigned addition. -/
def coalesce_blocks : List Block → List Block
  | [] => []
  | [b] => [b]
  | a :: b :: rest =>
    if !a.used && !b.used then
      coalesce_blocks (⟨(a.data_size + b.data_size + HEADER_SIZE) % U32, false⟩ :: rest)
    else
      a :: coalesce_blocks (b :: rest)
termination_by l => l.length

/-- The fatal error conditions `dfree` can signal. -/
inductive DfreeError where
  | misalignedAddress
  | unknownAddress
deriving DecidableEq, Repr

/-- The candidate header address `(struct dheader*)addr - 1` computed by
`dfree`, in 64-bit pointer arithmetic. -/
def candidate (p : Nat) : Nat := (p + (U64 - HEADER_SIZE)) % U64

/-- The scan loop of `dfree`: walk the heap starting at absolute address
`addr`, looking for the block whose header address equals `cand`; on a
match, mark that block free (`curr->used = 0`). -/
def dfreeScan (cand : Nat) : List Block → Nat → Option (List Block)
  | [], _ => none
  | b :: rest, addr =>
    if addr = cand then
      some (⟨b.data_size, false⟩ :: rest)
    else
      match dfreeScan cand rest (addr + HEADER_SIZE + b.data_size) with
      | none => none
      | some rest' => some (b :: rest')

/-- `dfree`: validate alignment of the candidate header address, scan for
it from the heap base, mark the matching block free and coalesce; signal
`MisalignedAddress` (before touching the heap) or `UnknownAddress` (after
the failed scan) otherwise.  `p` and `base` are absolute addresses. -/
def dfree (p base : Nat) (l : List Block) : Except DfreeError (List Block) :=
  if candidate p % ALIGNMENT_SIZE ≠ 0 then
    .error .misalignedAddress
  else
    match dfreeScan (candidate p) l base with
    | some l' => .ok (coalesce_blocks l')
    | none => .error .unknownAddress

/-- Heap states reachable from `dinit hs` by any sequence of successful
`dalloc` and `dfree` calls (sizes are C `unsigned`, hence `< U32`). -/
inductive Reach (base hs : Nat) : List Block → Prop where
  | init : Reach base hs (dinit hs)
  | alloc {l l' : List Block} {size p : Nat} :
      Reach base hs l → size < U32 → dalloc size l = (some p, l') →
      Reach base hs l'
  | free {l l' : List Block} {p : Nat} :
      Reach base hs l → dfree p base l = .ok l' → Reach base hs l'

/-- Heap states reachable when every `dalloc` call additionally avoids
the 32-bit wrap of `required_size` (`requiredSize size ≠ 0`). -/
inductive SafeReach (base hs : Nat) : List Block → Prop where
  | init : SafeReach base hs (dinit hs)
  | alloc {l l' : List Block} {size p : Nat} :
      SafeReach base hs l → size < U32 → requiredSize size ≠ 0 →
      dalloc size l = (some p, l') → SafeReach base hs l'
  | free {l l' : List Block} {p : Nat} :
      SafeReach base hs l → dfree p base l = .ok l' → SafeReach base hs l'

/-- The replacement of the selected block in a successful `dalloc`: two
blocks on a split (`data_size > required_size`), one block on an exact
fit. -/
def splitResult (size d : Nat) : List Block :=
  if requiredSize size < d then
    [⟨allocDataSize size, true⟩, ⟨d - requiredSize size, false⟩]
  else
    [⟨d, true⟩]

/-- No two adjacent blocks are both free (the shape `coalesce_blocks`
establishes and `dalloc` preserves). -/
def NoAdjFree : List Block → Prop
  | [] => True
  | [_] => True
  | a :: b :: rest => (a.used || b.used) = true ∧ NoAdjFree (b :: rest)

/-- The header addresses of the blocks of a heap whose first block sits
at absolute address `addr`. -/
def headerAddrs : List Block → Nat → List Nat
  | [], _ => []
  | b :: rest, addr => addr :: headerAddrs rest (addr + HEADER_SIZE + b.data_size)

/-! ## Arithmetic facts about the 32-bit rounding -/

theorem mask16_mod16 (v : Nat) : mask16 v % 16 = 0 := by
  unfold mask16; omega

theorem requiredSize_mod16 (size : Nat) : requiredSize size % 16 = 0 :=
  mask16_mod16 _

theorem allocDataSize_mod16 (size : Nat) : allocDataSize size % 16 = 0 :=
  mask16_mod16 _

/-- When the 32-bit computation of `required_size` does not collapse to
zero, it exceeds the value stored into the shrunken block's `data_size`
by exactly one header. -/
theorem requiredSize_eq_allocDataSize_add (size : Nat)
    (h0 : requiredSize size ≠ 0) :
    requiredSize size = allocDataSize size + HEADER_SIZE := by
  unfold requiredSize allocDataSize mask16 HEADER_SIZE U32 at *
  omega

/-- Without 32-bit overflow, the machine `required_size` is the exact
rounding `round_up(size + HEADER_SIZE, 16)`. -/
theorem requiredSize_no_wrap (size : Nat) (h : size + 31 < U32) :
    requiredSize size = roundUp16 (size + HEADER_SIZE) := by
  unfold requiredSize roundUp16 mask16 HEADER_SIZE U32 at *
  omega

/-- Without 32-bit overflow, the stored `data_size` is the exact rounding
`round_up(size, 16)`. -/
theorem allocDataSize_no_wrap (size : Nat) (h : size + 15 < U32) :
    allocDataSize size = roundUp16 size := by
  unfold allocDataSize roundUp16 mask16 U32 at *
  omega

/-! ## Basic facts about `sumBlocks` -/

theorem sumBlocks_nil : sumBlocks [] = 0 := rfl

theorem sumBlocks_cons (b : Block) (l : List Block) :
    sumBlocks (b :: l) = HEADER_SIZE + b.data_size + sumBlocks l := by
  unfold sumBlocks Block.size
  simp [List.map_cons, List.sum_cons]

theorem sumBlocks_append (l₁ l₂ : List Block) :
    sumBlocks (l₁ ++ l₂) = sumBlocks l₁ + sumBlocks l₂ := by
  unfold sumBlocks
  simp

/-- If every block's `data_size` is a multiple of 16, so is the total. -/
theorem sumBlocks_mod16 (l : List Block)
    (h : ∀ b ∈ l, b.data_size % 16 = 0) : sumBlocks l % 16 = 0 := by
  induction l with
  | nil => rfl
  | cons b rest ih =>
    rw [sumBlocks_cons]
    have hb := h b (by simp)
    have hr := ih (fun x hx => h x (by simp [hx]))
    unfold HEADER_SIZE
    omega

/-! ## Characterization of the first-fit scan of `dalloc` -/

theorem sumBlocks_splitResult (size d : Nat)
    (h0 : requiredSize size ≠ 0) :
    sumBlocks (splitResult size d) = HEADER_SIZE + d := by
  have hreq := requiredSize_eq_allocDataSize_add size h0
  unfold splitResult
  by_cases hlt : requiredSize size < d
  · simp only [hlt, if_true]
    rw [sumBlocks_cons, sumBlocks_cons, sumBlocks_nil]
    dsimp only
    omega
  · simp only [hlt, if_false]
    rw [sumBlocks_cons, sumBlocks_nil]
    dsimp only
    omega

/-- A successful scan decomposes the heap as: a prefix of non-fitting
blocks, the selected free block with `data_size ≥ required_size`, the
rest; the result replaces the selected block by `splitResult` and the
returned payload offset points right behind the selected header. -/
theorem dallocAux_some (size : Nat) :
    ∀ (l : List Block) (off p : Nat) (l' : List Block),
      dallocAux size l off = (some p, l') →
      ∃ pre d post,
        l = pre ++ ⟨d, false⟩ :: post ∧
        (∀ b ∈ pre, fits (requiredSize size) b = false) ∧
        requiredSize size ≤ d ∧
        p = off + sumBlocks pre + HEADER_SIZE ∧
        l' = pre ++ splitResult size d ++ post := by
  intro l
  induction l with
  | nil =>
    intro off p l' h
    simp [dallocAux] at h
  | cons b rest ih =>
    intro off p l' h
    obtain ⟨d, u⟩ := b
    by_cases hf : fits (requiredSize size) ⟨d, u⟩ = true
    · have hu : u = false := by
        by_contra hu
        have : u = true := by cases u <;> simp_all
        simp [fits, this] at hf
      have hle : requiredSize size ≤ d := by
        simp [fits, hu] at hf
        exact hf
      subst hu
      by_cases hlt : requiredSize size < d
      · rw [show dallocAux size (⟨d, false⟩ :: rest) off =
            (some (off + HEADER_SIZE),
              ⟨allocDataSize size, true⟩ ::
                ⟨d - requiredSize size, false⟩ :: rest) by
            simp [dallocAux, hf, hlt], Prod.mk.injEq, Option.some.injEq] at h
        refine ⟨[], d, rest, by simp, by simp, hle, ?_, ?_⟩
        · rw [sumBlocks_nil]
          have := h.1
          omega
        · rw [← h.2]
          simp [splitResult, hlt]
      · rw [show dallocAux size (⟨d, false⟩ :: rest) off =
            (some (off + HEADER_SIZE), ⟨d, true⟩ :: rest) by
            simp [dallocAux, hf, hlt], Prod.mk.injEq, Option.some.injEq] at h
        refine ⟨[], d, rest, by simp, by simp, hle, ?_, ?_⟩
        · rw [sumBlocks_nil]
          have := h.1
          omega
        · rw [← h.2]
          simp [splitResult, hlt]
    · have hf' : fits (requiredSize size) ⟨d, u⟩ = false := by
        cases hfv : fits (requiredSize size) ⟨d, u⟩ <;> simp_all
      rcases hE : dallocAux size rest (off + HEADER_SIZE + d) with ⟨q, l''⟩
      rw [show dallocAux size (⟨d, u⟩ :: rest) off = (q, ⟨d, u⟩ :: l'') by
          simp [dallocAux, hf', hE], Prod.mk.injEq] at h
      obtain ⟨pre', d', post', hdec, hpre, hle, hp, hl'⟩ :=
        ih (off + HEADER_SIZE + d) p l'' (by rw [hE, h.1])
      refine ⟨⟨d, u⟩ :: pre', d', post', ?_, ?_, hle, ?_, ?_⟩
      · rw [hdec]
        simp
      · intro x hx
        rcases List.mem_cons.mp hx with hx | hx
        · rw [hx]; exact hf'
        · exact hpre x hx
      · rw [sumBlocks_cons]
        dsimp only
        omega
      · rw [← h.2, hl']
        simp

/-- The scan succeeds on any heap decomposed as non-fitting prefix,
fitting free block, rest, producing exactly the `splitResult` heap. -/
theorem dallocAux_intro (size : Nat) :
    ∀ (pre : List Block) (d : Nat) (post : List Block) (off : Nat),
      (∀ b ∈ pre, fits (requiredSize size) b = false) →
      requiredSize size ≤ d →
      dallocAux size (pre ++ ⟨d, false⟩ :: post) off =
        (some (off + sumBlocks pre + HEADER_SIZE),
          pre ++ splitResult size d ++ post) := by
  intro pre
  induction pre with
  | nil =>
    intro d post off _ hle
    have hf : fits (requiredSize size) ⟨d, false⟩ = true := by
      simp [fits, hle]
    by_cases hlt : requiredSize size < d
    · simp only [List.nil_append, dallocAux, hf, if_true, hlt, splitResult,
        sumBlocks_nil]
      simp
    · simp only [List.nil_append, dallocAux, hf, if_true, hlt, if_false,
        splitResult, sumBlocks_nil]
      simp
  | cons b pre' ih =>
    intro d post off hpre hle
    have hb : fits (requiredSize size) b = false := hpre b (by simp)
    have hrec := ih d post (off + HEADER_SIZE + b.data_size)
      (fun x hx => hpre x (by simp [hx])) hle
    have hunfold : dallocAux size ((b :: pre') ++ ⟨d, false⟩ :: post) off =
        ((dallocAux size (pre' ++ ⟨d, false⟩ :: post)
            (off + HEADER_SIZE + b.data_size)).1,
          b :: (dallocAux size (pre' ++ ⟨d, false⟩ :: post)
            (off + HEADER_SIZE + b.data_size)).2) := by
      simp [dallocAux, hb]
    rw [hunfold, hrec]
    dsimp only
    rw [sumBlocks_cons, Prod.mk.injEq, Option.some.injEq]
    exact ⟨by omega, rfl⟩

/-- The scan returns `none` exactly when no block fits. -/
theorem dallocAux_fst_none_iff (size : Nat) :
    ∀ (l : List Block) (off : Nat),
      (dallocAux size l off).1 = none ↔
        ∀ b ∈ l, fits (requiredSize size) b = false := by
  intro l
  induction l with
  | nil => intro off; simp [dallocAux]
  | cons b rest ih =>
    intro off
    by_cases hf : fits (requiredSize size) b = true
    · by_cases hlt : requiredSize size < b.data_size <;>
        simp [dallocAux, hf, hlt]
    · have hf' : fits (requiredSize size) b = false := by
        cases hfv : fits (requiredSize size) b <;> simp_all
      simp [dallocAux, hf', ih]

/-- A failing scan leaves the heap unchanged. -/
theorem dallocAux_none_snd (size : Nat) :
    ∀ (l : List Block) (off : Nat),
      (dallocAux size l off).1 = none → (dallocAux size l off).2 = l := by
  intro l
  induction l with
  | nil => intro off _; simp [dallocAux]
  | cons b rest ih =>
    intro off hnone
    by_cases hf : fits (requiredSize size) b = true
    · by_cases hlt : requiredSize size < b.data_size <;>
        simp [dallocAux, hf, hlt] at hnone
    · have hf' : fits (requiredSize size) b = false := by
        cases hfv : fits (requiredSize size) b <;> simp_all
      simp only [dallocAux, hf', Bool.false_eq_true, if_false] at hnone ⊢
      rw [ih (off + HEADER_SIZE + b.data_size) hnone]

/-! ## Facts about `coalesce_blocks` -/

/-- A used first block is never merged: the walk advances past it. -/
theorem coalesce_cons_used (b : Block) (rest : List Block)
    (h : b.used = true) :
    coalesce_blocks (b :: rest) = b :: coalesce_blocks rest := by
  cases rest with
  | nil => simp [coalesce_blocks]
  | cons c rs => simp [coalesce_blocks, h]

/-- Coalescing preserves the capacity sum (the merge's 32-bit addition
does not wrap when the total fits in 32 bits). -/
theorem sumBlocks_coalesce :
    ∀ l : List Block, sumBlocks l < U32 →
      sumBlocks (coalesce_blocks l) = sumBlocks l := by
  intro l
  induction l using coalesce_blocks.induct with
  | case1 => intro _; simp [coalesce_blocks]
  | case2 b => intro _; simp [coalesce_blocks]
  | case3 a b rest hab ih =>
    intro h
    have hsum : sumBlocks (a :: b :: rest) =
        HEADER_SIZE + a.data_size +
          (HEADER_SIZE + b.data_size + sumBlocks rest) := by
      rw [sumBlocks_cons, sumBlocks_cons]
    have hnw : (a.data_size + b.data_size + HEADER_SIZE) % U32 =
        a.data_size + b.data_size + HEADER_SIZE := by
      apply Nat.mod_eq_of_lt
      unfold HEADER_SIZE at hsum ⊢
      omega
    have hm : sumBlocks
        (⟨(a.data_size + b.data_size + HEADER_SIZE) % U32, false⟩ :: rest) =
        sumBlocks (a :: b :: rest) := by
      rw [sumBlocks_cons]
      dsimp only
      rw [hnw, hsum]
      omega
    simp only [coalesce_blocks, hab, if_true]
    rw [ih (by rw [hm]; exact h), hm]
  | case4 a b rest hab ih =>
    intro h
    have hab' : (!a.used && !b.used) = false := by
      cases hv : (!a.used && !b.used) <;> simp_all
    have h' := h
    rw [sumBlocks_cons, sumBlocks_cons] at h'
    have hlt : sumBlocks (b :: rest) < U32 := by
      rw [sumBlocks_cons]
      omega
    simp only [coalesce_blocks, hab', Bool.false_eq_true, if_false]
    rw [sumBlocks_cons, sumBlocks_cons, ih hlt]

/-- Coalescing keeps every `data_size` a multiple of 16. -/
theorem data16_coalesce :
    ∀ l : List Block, (∀ b ∈ l, b.data_size % 16 = 0) →
      ∀ b ∈ coalesce_blocks l, b.data_size % 16 = 0 := by
  intro l
  induction l using coalesce_blocks.induct with
  | case1 => intro _; simp [coalesce_blocks]
  | case2 b => intro h; simpa [coalesce_blocks] using h
  | case3 a b rest hab ih =>
    intro h
    simp only [coalesce_blocks, hab, if_true]
    apply ih
    intro x hx
    rcases List.mem_cons.mp hx with hx | hx
    · rw [hx]
      dsimp only
      have ha := h a (by simp)
      have hb := h b (by simp)
      have h16 : (16 : Nat) ∣ U32 := by unfold U32; norm_num
      rw [Nat.mod_mod_of_dvd _ h16]
      unfold HEADER_SIZE
      omega
    · exact h x (by simp [hx])
  | case4 a b rest hab ih =>
    intro h
    have hab' : (!a.used && !b.used) = false := by
      cases hv : (!a.used && !b.used) <;> simp_all
    simp only [coalesce_blocks, hab', Bool.false_eq_true, if_false]
    intro x hx
    rcases List.mem_cons.mp hx with hx | hx
    · exact hx ▸ h a (by simp)
    · exact ih (fun y hy => h y (by simp [List.mem_cons.mp hy])) x hx

/-! ## Facts about `NoAdjFree` -/

theorem noAdjFree_cons_used (a : Block) (X : List Block)
    (h : a.used = true) (hX : NoAdjFree X) : NoAdjFree (a :: X) := by
  cases X with
  | nil => trivial
  | cons x xs => exact ⟨by simp [h], hX⟩

theorem noAdjFree_of_cons (b : Block) (X : List Block)
    (h : NoAdjFree (b :: X)) : NoAdjFree X := by
  cases X with
  | nil => trivial
  | cons x xs => exact h.2

/-- The single coalescing pass leaves no adjacent pair of free blocks. -/
theorem coalesce_noAdjFree :
    ∀ l : List Block, NoAdjFree (coalesce_blocks l) := by
  intro l
  induction l using coalesce_blocks.induct with
  | case1 => simp [coalesce_blocks, NoAdjFree]
  | case2 b => simp [coalesce_blocks, NoAdjFree]
  | case3 a b rest hab ih =>
    simp only [coalesce_blocks, hab, if_true]
    exact ih
  | case4 a b rest hab ih =>
    have hab' : (!a.used && !b.used) = false := by
      cases hv : (!a.used && !b.used) <;> simp_all
    simp only [coalesce_blocks, hab', Bool.false_eq_true, if_false]
    by_cases ha : a.used = true
    · exact noAdjFree_cons_used a _ ha ih
    · have ha' : a.used = false := by cases hv : a.used <;> simp_all
      have hb : b.used = true := by
        cases hv : b.used
        · simp [ha', hv] at hab'
        · rfl
      rw [coalesce_cons_used b rest hb] at ih ⊢
      exact ⟨by simp [hb], ih⟩

/-- Coalescing an already fully coalesced heap changes nothing. -/
theorem coalesce_eq_self_of_noAdjFree :
    ∀ l : List Block, NoAdjFree l → coalesce_blocks l = l := by
  intro l
  induction l using coalesce_blocks.induct with
  | case1 => intro _; simp [coalesce_blocks]
  | case2 b => intro _; simp [coalesce_blocks]
  | case3 a b rest hab ih =>
    intro h
    exfalso
    have h1 := h.1
    cases hva : a.used <;> cases hvb : b.used <;> simp_all
  | case4 a b rest hab ih =>
    intro h
    have hab' : (!a.used && !b.used) = false := by
      cases hv : (!a.used && !b.used) <;> simp_all
    simp only [coalesce_blocks, hab', Bool.false_eq_true, if_false]
    rw [ih h.2]

/-! ## Facts about the `dfree` scan -/

/-- A successful `dfree` scan marks exactly one block free and changes
nothing else. -/
theorem dfreeScan_some (cand : Nat) :
    ∀ (l : List Block) (addr : Nat) (l'' : List Block),
      dfreeScan cand l addr = some l'' →
      ∃ pre b post, l = pre ++ b :: post ∧ addr + sumBlocks pre = cand ∧
        l'' = pre ++ ⟨b.data_size, false⟩ :: post := by
  intro l
  induction l with
  | nil => intro addr l'' h; simp [dfreeScan] at h
  | cons b rest ih =>
    intro addr l'' h
    by_cases heq : addr = cand
    · simp only [dfreeScan, heq, if_true, Option.some.injEq] at h
      exact ⟨[], b, rest, by simp, by rw [sumBlocks_nil]; omega, by simp [← h]⟩
    · simp only [dfreeScan, heq, if_false] at h
      rcases hrec : dfreeScan cand rest (addr + HEADER_SIZE + b.data_size) with
        _ | rest'
      · rw [hrec] at h; exact absurd h (by simp)
      · rw [hrec] at h
        obtain ⟨pre', b', post', hdec, haddr, hmark⟩ :=
          ih (addr + HEADER_SIZE + b.data_size) rest' hrec
        refine ⟨b :: pre', b', post', by simp [hdec], ?_, ?_⟩
        · rw [sumBlocks_cons]; omega
        · simp only [Option.some.injEq] at h
          rw [← h, hmark]
          simp

/-- The scan fails exactly when the candidate matches no header address
in the sequence. -/
theorem dfreeScan_none_iff (cand : Nat) :
    ∀ (l : List Block) (addr : Nat),
      dfreeScan cand l addr = none ↔ cand ∉ headerAddrs l addr := by
  intro l
  induction l with
  | nil => intro addr; simp [dfreeScan, headerAddrs]
  | cons b rest ih =>
    intro addr
    by_cases heq : addr = cand
    · simp [dfreeScan, heq, headerAddrs]
    · rcases hrec : dfreeScan cand rest (addr + HEADER_SIZE + b.data_size) with
        _ | rest'
      · have hni := (ih (addr + HEADER_SIZE + b.data_size)).mp hrec
        constructor
        · intro _
          simp only [headerAddrs, List.mem_cons]
          push_neg
          exact ⟨fun hc => heq hc.symm, hni⟩
        · intro _
          simp [dfreeScan, heq, hrec]
      · have hm : cand ∈ headerAddrs rest (addr + HEADER_SIZE + b.data_size) := by
          by_contra hnm
          rw [(ih (addr + HEADER_SIZE + b.data_size)).mpr hnm] at hrec
          exact absurd hrec (by simp)
        constructor
        · intro h0
          exfalso
          have hv : dfreeScan cand (b :: rest) addr = some (b :: rest') := by
            simp [dfreeScan, heq, hrec]
          rw [hv] at h0
          exact absurd h0 (by simp)
        · intro hno
          exfalso
          exact hno (by simp [headerAddrs, hm])

/-- Scanning for the `i`-th block's own header address finds it (earlier
headers sit at strictly smaller addresses) and marks exactly it free. -/
theorem dfreeScan_at :
    ∀ (l : List Block) (i : Nat) (h : i < l.length) (addr : Nat),
      dfreeScan (addr + blockOffset l i) l addr =
        some (l.take i ++ ⟨(l.get ⟨i, h⟩).data_size, false⟩ :: l.drop (i + 1)) := by
  intro l
  induction l with
  | nil => intro i h; exact absurd h (by simp)
  | cons b rest ih =>
    intro i h addr
    cases i with
    | zero =>
      have hoff : blockOffset (b :: rest) 0 = 0 := rfl
      simp [dfreeScan, hoff]
    | succ i =>
      have hoff : blockOffset (b :: rest) (i + 1) =
          HEADER_SIZE + b.data_size + blockOffset rest i := by
        unfold blockOffset
        rw [List.take_succ_cons, sumBlocks_cons]
      have hne : addr ≠ addr + blockOffset (b :: rest) (i + 1) := by
        rw [hoff]
        unfold HEADER_SIZE
        omega
      have hi : i < rest.length := by simpa using h
      simp only [dfreeScan, hne, if_false]
      have := ih i hi (addr + HEADER_SIZE + b.data_size)
      rw [show addr + blockOffset (b :: rest) (i + 1) =
          addr + HEADER_SIZE + b.data_size + blockOffset rest i by
          rw [hoff]; omega, this]
      simp

/-! ## The candidate header address of `dfree` -/

theorem candidate_mod16 (p : Nat) : candidate p % 16 = p % 16 := by
  unfold candidate U64 HEADER_SIZE
  omega

theorem candidate_eq (p : Nat) (h16 : HEADER_SIZE ≤ p) (hlt : p < U64) :
    candidate p = p - HEADER_SIZE := by
  unfold candidate U64 HEADER_SIZE at *
  omega

/-! ## `dalloc` preserves the no-adjacent-free-blocks shape -/

/-- A successful scan keeps the head block unless it is the selected
block, in which case the new head is marked used. -/
theorem dallocAux_some_head (size : Nat) (x : Block) (xs : List Block)
    (off p : Nat) (l' : List Block)
    (h : dallocAux size (x :: xs) off = (some p, l')) :
    ∃ y ys, l' = y :: ys ∧ (y = x ∨ y.used = true) := by
  by_cases hf : fits (requiredSize size) x = true
  · by_cases hlt : requiredSize size < x.data_size
    · rw [show dallocAux size (x :: xs) off =
          (some (off + HEADER_SIZE),
            ⟨allocDataSize size, true⟩ ::
              ⟨x.data_size - requiredSize size, false⟩ :: xs) by
          simp [dallocAux, hf, hlt], Prod.mk.injEq] at h
      exact ⟨_, _, h.2.symm, Or.inr rfl⟩
    · rw [show dallocAux size (x :: xs) off =
          (some (off + HEADER_SIZE), ⟨x.data_size, true⟩ :: xs) by
          simp [dallocAux, hf, hlt], Prod.mk.injEq] at h
      exact ⟨_, _, h.2.symm, Or.inr rfl⟩
  · have hf' : fits (requiredSize size) x = false := by
      cases hv : fits (requiredSize size) x <;> simp_all
    rcases hE : dallocAux size xs (off + HEADER_SIZE + x.data_size) with ⟨q, l''⟩
    rw [show dallocAux size (x :: xs) off = (q, x :: l'') by
        simp [dallocAux, hf', hE], Prod.mk.injEq] at h
    exact ⟨_, _, h.2.symm, Or.inl rfl⟩

/-- A successful allocation preserves the no-adjacent-free shape. -/
theorem dallocAux_noAdjFree (size : Nat) :
    ∀ (l : List Block) (off p : Nat) (l' : List Block),
      NoAdjFree l → dallocAux size l off = (some p, l') → NoAdjFree l' := by
  intro l
  induction l with
  | nil => intro off p l' _ h; simp [dallocAux] at h
  | cons b rest ih =>
    intro off p l' hna h
    by_cases hf : fits (requiredSize size) b = true
    · have hu : b.used = false := by
        by_contra hu
        have : b.used = true := by cases hv : b.used <;> simp_all
        simp [fits, this] at hf
      have hrest : ∀ r0 rs, rest = r0 :: rs → r0.used = true := by
        intro r0 rs hr
        rw [hr] at hna
        have h1 := hna.1
        cases hv : r0.used
        · rw [hu, hv] at h1; simp at h1
        · rfl
      by_cases hlt : requiredSize size < b.data_size
      · rw [show dallocAux size (b :: rest) off =
            (some (off + HEADER_SIZE),
              ⟨allocDataSize size, true⟩ ::
                ⟨b.data_size - requiredSize size, false⟩ :: rest) by
            simp [dallocAux, hf, hlt], Prod.mk.injEq] at h
        rw [← h.2]
        refine ⟨by simp, ?_⟩
        cases rest with
        | nil => trivial
        | cons r0 rs =>
          exact ⟨by simp [hrest r0 rs rfl], noAdjFree_of_cons _ _ hna⟩
      · rw [show dallocAux size (b :: rest) off =
            (some (off + HEADER_SIZE), ⟨b.data_size, true⟩ :: rest) by
            simp [dallocAux, hf, hlt], Prod.mk.injEq] at h
        rw [← h.2]
        exact noAdjFree_cons_used _ _ rfl (noAdjFree_of_cons _ _ hna)
    · have hf' : fits (requiredSize size) b = false := by
        cases hv : fits (requiredSize size) b <;> simp_all
      rcases hE : dallocAux size rest (off + HEADER_SIZE + b.data_size) with
        ⟨q, l''⟩
      rw [show dallocAux size (b :: rest) off = (q, b :: l'') by
          simp [dallocAux, hf', hE], Prod.mk.injEq] at h
      have hq : q = some p := h.1
      rw [hq] at hE
      have hna'' : NoAdjFree l'' :=
        ih (off + HEADER_SIZE + b.data_size) p l''
          (noAdjFree_of_cons _ _ hna) hE
      rw [← h.2]
      by_cases hbu : b.used = true
      · exact noAdjFree_cons_used _ _ hbu hna''
      · have hbu' : b.used = false := by cases hv : b.used <;> simp_all
        cases rest with
        | nil => simp [dallocAux] at hE
        | cons r0 rs =>
          have hr0 : r0.used = true := by
            have h1 := hna.1
            cases hv : r0.used
            · rw [hbu', hv] at h1; simp at h1
            · rfl
          obtain ⟨y, ys, hy, hcase⟩ := dallocAux_some_head size r0 rs _ p l'' hE
          rw [hy]
          refine ⟨?_, hy ▸ hna''⟩
          rcases hcase with hcase | hcase
          · rw [hcase, hr0]; simp
          · rw [hcase]; simp

/-! ## Inversion of a successful `dfree` -/

theorem dfree_ok (p base : Nat) (l l' : List Block)
    (hd : dfree p base l = .ok l') :
    candidate p % ALIGNMENT_SIZE = 0 ∧
    ∃ l'', dfreeScan (candidate p) l base = some l'' ∧
      l' = coalesce_blocks l'' := by
  unfold dfree at hd
  by_cases hal : candidate p % ALIGNMENT_SIZE ≠ 0
  · rw [if_pos hal] at hd
    exact absurd hd (by simp)
  · rw [if_neg hal] at hd
    rcases hscan : dfreeScan (candidate p) l base with _ | l''
    · rw [hscan] at hd
      exact absurd hd (by simp)
    · rw [hscan] at hd
      simp only [Except.ok.injEq] at hd
      exact ⟨by omega, l'', rfl, hd.symm⟩

/-! ## Preservation of the capacity sum by the two operations -/

theorem sumBlocks_dalloc (size p : Nat) (l l' : List Block)
    (h0 : requiredSize size ≠ 0)
    (hd : dalloc size l = (some p, l')) : sumBlocks l' = sumBlocks l := by
  obtain ⟨pre, d, post, hdec, _, hle, _, hl'⟩ :=
    dallocAux_some size l 0 p l' hd
  rw [hl', hdec, sumBlocks_append, sumBlocks_append, sumBlocks_append,
    sumBlocks_cons, sumBlocks_splitResult size d h0]
  dsimp only
  omega

theorem sumBlocks_dfree (p base : Nat) (l l' : List Block)
    (hd : dfree p base l = .ok l') (hlt : sumBlocks l < U32) :
    sumBlocks l' = sumBlocks l := by
  obtain ⟨-, l'', hscan, hco⟩ := dfree_ok p base l l' hd
  obtain ⟨pre, b, post, hdec, -, hmark⟩ := dfreeScan_some (candidate p) l base l'' hscan
  have hsum : sumBlocks l'' = sumBlocks l := by
    rw [hmark, hdec, sumBlocks_append, sumBlocks_append, sumBlocks_cons,
      sumBlocks_cons]
  rw [hco, sumBlocks_coalesce l'' (by rw [hsum]; exact hlt), hsum]

/-! ## Preservation of 16-divisibility of every `data_size` -/

theorem data16_dalloc (size p : Nat) (l l' : List Block)
    (h : ∀ b ∈ l, b.data_size % 16 = 0)
    (hd : dalloc size l = (some p, l')) :
    ∀ b ∈ l', b.data_size % 16 = 0 := by
  obtain ⟨pre, d, post, hdec, -, hle, -, hl'⟩ :=
    dallocAux_some size l 0 p l' hd
  have hd16 : d % 16 = 0 := by
    have := h ⟨d, false⟩ (by rw [hdec]; simp)
    exact this
  have hr16 := requiredSize_mod16 size
  intro b hb
  rw [hl'] at hb
  rcases List.mem_append.mp hb with hb | hb
  · rcases List.mem_append.mp hb with hb | hb
    · exact h b (by rw [hdec]; simp [hb])
    · unfold splitResult at hb
      by_cases hltd : requiredSize size < d
      · rw [if_pos hltd] at hb
        rcases List.mem_cons.mp hb with hb | hb
        · rw [hb]
          exact allocDataSize_mod16 size
        · rcases List.mem_cons.mp hb with hb | hb
          · rw [hb]
            dsimp only
            omega
          · exact absurd hb (by simp)
      · rw [if_neg hltd] at hb
        rcases List.mem_cons.mp hb with hb | hb
        · rw [hb]
          exact hd16
        · exact absurd hb (by simp)
  · exact h b (by rw [hdec]; simp [hb])

theorem data16_dfree (p base : Nat) (l l' : List Block)
    (h : ∀ b ∈ l, b.data_size % 16 = 0)
    (hd : dfree p base l = .ok l') :
    ∀ b ∈ l', b.data_size % 16 = 0 := by
  obtain ⟨-, l'', hscan, hco⟩ := dfree_ok p base l l' hd
  obtain ⟨pre, b, post, hdec, -, hmark⟩ :=
    dfreeScan_some (candidate p) l base l'' hscan
  rw [hco]
  apply data16_coalesce
  intro x hx
  rw [hmark] at hx
  rcases List.mem_append.mp hx with hx | hx
  · exact h x (by rw [hdec]; simp [hx])
  · rcases List.mem_cons.mp hx with hx | hx
    · rw [hx]
      exact h b (by rw [hdec]; simp)
    · exact h x (by rw [hdec]; simp [hx])

/-! ## Invariants of reachable heap states -/

/-- Every reachable heap state with headers summing below `2^32` that was
produced only through non-wrapping allocations conserves the capacity
sum. -/
theorem SafeReach.sum {base hs : Nat} {l : List Block}
    (h : SafeReach base hs l) (h16 : HEADER_SIZE ≤ hs) (hlt : hs < U32) :
    sumBlocks l = hs := by
  induction h with
  | init =>
    unfold dinit
    rw [sumBlocks_cons, sumBlocks_nil]
    dsimp only
    unfold HEADER_SIZE at h16 ⊢
    omega
  | alloc hre hsz h0 hd ih =>
    rw [sumBlocks_dalloc _ _ _ _ h0 hd, ih]
  | free hre hd ih =>
    rw [sumBlocks_dfree _ _ _ _ hd (by rw [ih]; exact hlt), ih]

/-- In every reachable heap state of a 16-aligned extent, every block's
`data_size` is a multiple of 16. -/
theorem Reach.data16 {base hs : Nat} {l : List Block}
    (h : Reach base hs l) (hhs : hs % 16 = 0) :
    ∀ b ∈ l, b.data_size % 16 = 0 := by
  induction h with
  | init =>
    intro b hb
    unfold dinit at hb
    rcases List.mem_cons.mp hb with hb | hb
    · rw [hb]
      dsimp only
      unfold HEADER_SIZE
      omega
    · exact absurd hb (by simp)
  | alloc hre hsz hd ih => exact data16_dalloc _ _ _ _ ih hd
  | free hre hd ih => exact data16_dfree _ _ _ _ ih hd

/-- Every reachable heap state has no two adjacent free blocks. -/
theorem Reach.noAdjFree {base hs : Nat} {l : List Block}
    (h : Reach base hs l) : NoAdjFree l := by
  induction h with
  | init => unfold dinit NoAdjFree; trivial
  | alloc hre hsz hd ih => exact dallocAux_noAdjFree _ _ _ _ _ ih hd
  | free hre hd ih =>
    obtain ⟨-, l'', hscan, hco⟩ := dfree_ok _ _ _ _ hd
    rw [hco]
    exact coalesce_noAdjFree l''

/-! ## Two small auxiliary facts -/

theorem fits_false_iff (r : Nat) (b : Block) :
    fits r b = false ↔ b.used = true ∨ b.data_size < r := by
  unfold fits
  cases hv : b.used <;> simp

theorem block_le_sumBlocks (l : List Block) (b : Block) (hb : b ∈ l) :
    HEADER_SIZE + b.data_size ≤ sumBlocks l := by
  induction l with
  | nil => exact absurd hb (by simp)
  | cons c rest ih =>
    rw [sumBlocks_cons]
    rcases List.mem_cons.mp hb with hb | hb
    · rw [hb]
      omega
    · have := ih hb
      omega

/-! ## Claim C1: capacity conservation -/

/-- C1 counterexample: the claim as stated fails.  From the fresh 1 MiB
heap, the call `dalloc 4294967280` (= `2^32 - 16`) succeeds — its 32-bit
`required_size` wraps to 0 — and reaches a state whose headers sum to
`2^32 + 1048576`, not the heap extent.  (In the C code the same call
additionally carves the new header at offset 0, making the selected
header link to itself.) -/
theorem c1_counterexample :
    Reach 0 1048576 [⟨4294967280, true⟩, ⟨1048560, false⟩] ∧
    sumBlocks [⟨4294967280, true⟩, ⟨1048560, false⟩] ≠ 1048576 := by
  constructor
  · exact Reach.alloc Reach.init (by decide)
      (by decide :
        dalloc 4294967280 (dinit 1048576) =
          (some 16, [⟨4294967280, true⟩, ⟨1048560, false⟩]))
  · decide

/-- C1 (amended): for every heap state reachable from `dinit` by
successful `dalloc` and `dfree` calls in which every allocation's 32-bit
`required_size` is nonzero (no wrap to 0, i.e. the requested size is not
in `[2^32-31, 2^32-16]`), the sum of `header_size + data_size` over all
blocks equals the fixed heap extent. -/
theorem c1_conservation (base hs : Nat) (l : List Block)
    (h16 : HEADER_SIZE ≤ hs) (hlt : hs < U32)
    (h : SafeReach base hs l) : sumBlocks l = hs :=
  SafeReach.sum h h16 hlt

/-- C1 witness: conservation evaluated after `init`, one allocation and
one release on the 1 MiB heap. -/
theorem c1_conservation_witness :
    sumBlocks [⟨112, true⟩, ⟨1048432, false⟩] = 1048576 :=
  c1_conservation 0 1048576 _ (by decide) (by decide)
    (SafeReach.alloc SafeReach.init (by decide) (by decide)
      (by decide :
        dalloc 100 (dinit 1048576) =
          (some 16, [⟨112, true⟩, ⟨1048432, false⟩])))

/-! ## Claim C9: the rounded requirement -/

/-- C9 counterexample: at `requested_size = 4294967280 > 2^32 - 17` the
32-bit computation yields `required_size = 0`, while the exact formula
`round_up(requested_size + header_size, 16)` yields `2^32`. -/
theorem c9_counterexample :
    requiredSize 4294967280 = 0 ∧
    roundUp16 (4294967280 + HEADER_SIZE) = 4294967296 ∧
    requiredSize 4294967280 ≠ roundUp16 (4294967280 + HEADER_SIZE) :=
  ⟨by decide, by decide, by decide⟩

/-- C9 (amended): for every unsigned `requested_size`, the machine
computation equals the exact `round_up(requested_size + header_size, 16)`
reduced modulo `2^32`, and it equals the exact value itself precisely
when `requested_size + 31 < 2^32` (no wrap). -/
theorem c9_rounding (size : Nat) (hsz : size < U32) :
    requiredSize size = roundUp16 (size + HEADER_SIZE) % U32 ∧
    (requiredSize size = roundUp16 (size + HEADER_SIZE) ↔
      size + 31 < U32) := by
  unfold requiredSize roundUp16 mask16 HEADER_SIZE U32 at *
  constructor
  · omega
  · omega

/-- C9 witness: the amended statement evaluated at `requested_size = 100`. -/
theorem c9_rounding_witness :
    requiredSize 100 = roundUp16 (100 + HEADER_SIZE) % U32 ∧
    (requiredSize 100 = roundUp16 (100 + HEADER_SIZE) ↔ 100 + 31 < U32) :=
  c9_rounding 100 (by decide)

/-! ## Claim C4: consuming the whole heap -/

/-- C4 counterexample: on the fresh 1 MiB heap,
`allocate(heap_extent - header_size)` does not succeed — the fit test
demands `data_size ≥ round_up(requested + header_size, 16) = heap_extent`
but the sole block only offers `heap_extent - header_size`. -/
theorem c4_counterexample :
    dalloc (1048576 - HEADER_SIZE) (dinit 1048576) =
      (none, dinit 1048576) := by
  decide

/-- C4 (amended): `allocate(heap_extent - header_size)` returns none even
on the fresh heap; the largest request that consumes the sole initial
block is `heap_extent - 2*header_size`, which succeeds exactly once
without a split (one used block remains) and returns none when repeated
before any deallocation. -/
theorem c4_whole_heap (hs : Nat) (h32 : 2 * HEADER_SIZE ≤ hs)
    (h16 : hs % 16 = 0) (hlt : hs < U32) :
    dalloc (hs - HEADER_SIZE) (dinit hs) = (none, dinit hs) ∧
    dalloc (hs - 2 * HEADER_SIZE) (dinit hs) =
      (some HEADER_SIZE, [⟨hs - HEADER_SIZE, true⟩]) ∧
    dalloc (hs - 2 * HEADER_SIZE) [⟨hs - HEADER_SIZE, true⟩] =
      (none, [⟨hs - HEADER_SIZE, true⟩]) := by
  have hr1 : requiredSize (hs - HEADER_SIZE) = hs := by
    rw [requiredSize_no_wrap _ (by unfold HEADER_SIZE U32 at *; omega)]
    unfold roundUp16 HEADER_SIZE at *
    omega
  have hr2 : requiredSize (hs - 2 * HEADER_SIZE) = hs - HEADER_SIZE := by
    rw [requiredSize_no_wrap _ (by unfold HEADER_SIZE U32 at *; omega)]
    unfold roundUp16 HEADER_SIZE at *
    omega
  refine ⟨?_, ?_, ?_⟩
  · have hfit : fits (requiredSize (hs - HEADER_SIZE))
        ⟨hs - HEADER_SIZE, false⟩ = false := by
      rw [hr1]
      simp only [fits, Bool.not_false, Bool.true_and, decide_eq_false_iff_not]
      unfold HEADER_SIZE at *
      omega
    unfold dalloc dinit
    simp [dallocAux, hfit]
  · have hfit : fits (requiredSize (hs - 2 * HEADER_SIZE))
        ⟨hs - HEADER_SIZE, false⟩ = true := by
      rw [hr2]
      simp [fits]
    have hns : ¬ requiredSize (hs - 2 * HEADER_SIZE) <
        (⟨hs - HEADER_SIZE, false⟩ : Block).data_size := by
      rw [hr2]
      dsimp only
      omega
    unfold dalloc dinit
    simp [dallocAux, hfit, hns]
  · have hfit : fits (requiredSize (hs - 2 * HEADER_SIZE))
        ⟨hs - HEADER_SIZE, true⟩ = false := by
      simp [fits]
    unfold dalloc
    simp [dallocAux, hfit]

/-- C4 witness: the amended statement evaluated at the 1 MiB extent. -/
theorem c4_whole_heap_witness :
    dalloc (1048576 - HEADER_SIZE) (dinit 1048576) =
      (none, dinit 1048576) ∧
    dalloc (1048576 - 2 * HEADER_SIZE) (dinit 1048576) =
      (some HEADER_SIZE, [⟨1048576 - HEADER_SIZE, true⟩]) ∧
    dalloc (1048576 - 2 * HEADER_SIZE) [⟨1048576 - HEADER_SIZE, true⟩] =
      (none, [⟨1048576 - HEADER_SIZE, true⟩]) :=
  c4_whole_heap 1048576 (by decide) (by decide) (by decide)

/-! ## Claim C2: the split rule -/

/-- C2: when the selected free block's `data_size` strictly exceeds
`required_size`, a new free header is carved at offset `required_size`
from the selected block's start (it follows the shrunken block and
inherits the old successors), holding the remaining size minus the header
cost, while the selected block is shrunk to the 32-bit computation of
`round_up(requested_size, 16)` (the exact rounding whenever
`requested_size + 15 < 2^32`); on an exact fit no split occurs and the
block count is unchanged.  Concrete instance: `allocate(100)` on the
fresh 1 MiB heap leaves a used block of `data_size` 112 and a free block
of `data_size` `16 + 1048560 - 128 - 16`. -/
theorem c2_split_rule (size : Nat) (pre : List Block) (d : Nat)
    (post : List Block)
    (hpre : ∀ b ∈ pre, fits (requiredSize size) b = false)
    (hle : requiredSize size ≤ d) :
    (requiredSize size < d →
      dalloc size (pre ++ ⟨d, false⟩ :: post) =
        (some (sumBlocks pre + HEADER_SIZE),
          pre ++ ⟨allocDataSize size, true⟩ ::
            ⟨HEADER_SIZE + d - requiredSize size - HEADER_SIZE, false⟩ ::
              post)) ∧
    (requiredSize size = d →
      dalloc size (pre ++ ⟨d, false⟩ :: post) =
        (some (sumBlocks pre + HEADER_SIZE), pre ++ ⟨d, true⟩ :: post) ∧
      (pre ++ ⟨d, true⟩ :: post).length =
        (pre ++ ⟨d, false⟩ :: post).length) ∧
    (size + 15 < U32 → allocDataSize size = roundUp16 size) ∧
    (dalloc 100 (dinit 1048576) =
      (some HEADER_SIZE, [⟨112, true⟩, ⟨1048432, false⟩]) ∧
      (112 : Nat) = roundUp16 100 ∧
      (1048432 : Nat) = HEADER_SIZE + 1048560 - 128 - HEADER_SIZE) := by
  have hintro := dallocAux_intro size pre d post 0 hpre hle
  rw [Nat.zero_add] at hintro
  refine ⟨?_, ?_, allocDataSize_no_wrap size,
    by decide, by decide, by decide⟩
  · intro hlt
    have harith : HEADER_SIZE + d - requiredSize size - HEADER_SIZE =
        d - requiredSize size := by
      unfold HEADER_SIZE
      omega
    have hsplit : splitResult size d =
        [⟨allocDataSize size, true⟩, ⟨d - requiredSize size, false⟩] := by
      unfold splitResult
      rw [if_pos hlt]
    unfold dalloc
    rw [hintro, hsplit, harith]
    simp
  · intro heq
    have hsplit : splitResult size d = [⟨d, true⟩] := by
      unfold splitResult
      rw [if_neg (by omega)]
    constructor
    · unfold dalloc
      rw [hintro, hsplit]
      simp
    · simp

/-- C2 witness: the split branch evaluated on the fresh 1 MiB heap with
`requested_size = 100` (`required_size = 128 < 1048560`). -/
theorem c2_split_rule_witness :
    dalloc 100 ([] ++ ⟨1048560, false⟩ :: []) =
      (some (sumBlocks [] + HEADER_SIZE),
        [] ++ ⟨allocDataSize 100, true⟩ ::
          ⟨HEADER_SIZE + 1048560 - requiredSize 100 - HEADER_SIZE, false⟩ ::
            []) :=
  (c2_split_rule 100 [] 1048560 [] (by simp) (by decide)).1 (by decide)

/-! ## Claim C3: first-fit selection -/

/-- C3: whenever `dalloc` returns a payload pointer, the block it marks
used is the earliest block in address order that is free and large
enough — every earlier block fails the fit test — and the returned
pointer is the address immediately following that block's header. -/
theorem c3_first_fit (size : Nat) (l : List Block) (p : Nat)
    (l' : List Block) (hd : dalloc size l = (some p, l')) :
    ∃ i, ∃ hi : i < l.length,
      fits (requiredSize size) (l.get ⟨i, hi⟩) = true ∧
      (∀ j, ∀ hj : j < l.length, j < i →
        fits (requiredSize size) (l.get ⟨j, hj⟩) = false) ∧
      p = blockOffset l i + HEADER_SIZE := by
  obtain ⟨pre, d, post, hdec, hpre, hle, hp, -⟩ :=
    dallocAux_some size l 0 p l' hd
  subst hdec
  have hlen : pre.length < (pre ++ ⟨d, false⟩ :: post).length := by simp
  refine ⟨pre.length, hlen, ?_, ?_, ?_⟩
  · have hget : (pre ++ ⟨d, false⟩ :: post).get ⟨pre.length, hlen⟩ =
        ⟨d, false⟩ := by
      rw [List.get_eq_getElem]
      dsimp only
      rw [List.getElem_append_right (by omega)]
      simp
    rw [hget]
    simp [fits, hle]
  · intro j hj hji
    have hget : (pre ++ ⟨d, false⟩ :: post).get ⟨j, hj⟩ =
        pre.get ⟨j, hji⟩ := by
      rw [List.get_eq_getElem, List.get_eq_getElem]
      dsimp only
      rw [List.getElem_append_left hji]
    rw [hget]
    exact hpre _ (List.get_mem pre j hji)
  · have hoff : blockOffset (pre ++ ⟨d, false⟩ :: post) pre.length =
        sumBlocks pre := by
      unfold blockOffset
      rw [List.take_left]
    omega

/-- C3 witness: the first-fit characterization evaluated for
`allocate(100)` on the fresh 1 MiB heap. -/
theorem c3_first_fit_witness :
    ∃ i, ∃ hi : i < (dinit 1048576).length,
      fits (requiredSize 100) ((dinit 1048576).get ⟨i, hi⟩) = true ∧
      (∀ j, ∀ hj : j < (dinit 1048576).length, j < i →
        fits (requiredSize 100) ((dinit 1048576).get ⟨j, hj⟩) = false) ∧
      16 = blockOffset (dinit 1048576) i + HEADER_SIZE :=
  c3_first_fit 100 (dinit 1048576) 16 [⟨112, true⟩, ⟨1048432, false⟩]
    (by decide)

/-! ## Claim C6: OutOfMemory behaviour -/

/-- C6: `dalloc` returns none exactly when no block in the sequence is
both free and of `data_size ≥ required_size`; a failing call leaves the
heap completely unchanged; and requesting the whole heap extent (leaving
no room for the request's own header) returns none on any heap whose
headers sum to that extent. -/
theorem c6_oom (size : Nat) (l : List Block) :
    ((dalloc size l).1 = none ↔
      ∀ b ∈ l, b.used = true ∨ b.data_size < requiredSize size) ∧
    ((dalloc size l).1 = none → (dalloc size l).2 = l) ∧
    (∀ hs, HEADER_SIZE ≤ hs → hs + 31 < U32 → sumBlocks l = hs →
      dalloc hs l = (none, l)) := by
  refine ⟨?_, dallocAux_none_snd size l 0, ?_⟩
  · unfold dalloc
    rw [dallocAux_fst_none_iff size l 0]
    constructor
    · intro h b hb
      exact (fits_false_iff _ b).mp (h b hb)
    · intro h b hb
      exact (fits_false_iff _ b).mpr (h b hb)
  · intro hs h16 hlt hsum
    have hreq : hs + HEADER_SIZE ≤ requiredSize hs := by
      rw [requiredSize_no_wrap hs hlt]
      unfold roundUp16 HEADER_SIZE
      omega
    have hfits : ∀ b ∈ l, fits (requiredSize hs) b = false := by
      intro b hb
      have hdle := block_le_sumBlocks l b hb
      rw [fits_false_iff]
      right
      unfold HEADER_SIZE at *
      omega
    have h1 : (dalloc hs l).1 = none :=
      (dallocAux_fst_none_iff hs l 0).mpr hfits
    have h2 := dallocAux_none_snd hs l 0 h1
    have hsplit : dalloc hs l = ((dalloc hs l).1, (dalloc hs l).2) := rfl
    rw [hsplit, h1]
    rw [show (dalloc hs l).2 = (dallocAux hs l 0).2 from rfl, h2]

/-- C6 witness: requesting the whole 1 MiB extent on the fresh heap
returns none and leaves the heap unchanged. -/
theorem c6_oom_witness :
    dalloc 1048576 (dinit 1048576) = (none, dinit 1048576) :=
  (c6_oom 1048576 (dinit 1048576)).2.2 1048576 (by decide) (by decide)
    (by decide)

/-! ## Claim C7: the fatal-error contract of `dfree` -/

/-- C7: `dfree p` signals `MisalignedAddress` (before touching the heap)
exactly when the candidate header address `p - header_size` is not a
multiple of 16 — equivalently, when `p` itself is not 16-aligned, so in
particular for any pointer one byte past a 16-aligned allocation — and
signals `UnknownAddress` exactly when the aligned candidate matches no
header address currently in the sequence; such calls never succeed. -/
theorem c7_dfree_errors (p base : Nat) (l : List Block) :
    (dfree p base l = .error .misalignedAddress ↔ p % 16 ≠ 0) ∧
    (dfree p base l = .error .unknownAddress ↔
      p % 16 = 0 ∧ candidate p ∉ headerAddrs l base) ∧
    (∀ q : Nat, q % 16 = 0 →
      dfree (q + 1) base l = .error .misalignedAddress) := by
  have key : ∀ (p' : Nat),
      (dfree p' base l = .error .misalignedAddress ↔ p' % 16 ≠ 0) ∧
      (dfree p' base l = .error .unknownAddress ↔
        p' % 16 = 0 ∧ candidate p' ∉ headerAddrs l base) := by
    intro p'
    have hc : candidate p' % ALIGNMENT_SIZE = p' % 16 := by
      unfold ALIGNMENT_SIZE
      exact candidate_mod16 p'
    unfold dfree
    rw [hc]
    by_cases hal : p' % 16 ≠ 0
    · rw [if_pos hal]
      refine ⟨by simp [hal], ?_⟩
      simp only [iff_iff_implies_and_implies]
      constructor
      · intro h
        exact absurd h (by simp)
      · intro h
        exact absurd h.1 hal
    · rw [if_neg hal]
      rcases hscan : dfreeScan (candidate p') l base with _ | l''
      · have hni := (dfreeScan_none_iff (candidate p') l base).mp hscan
        constructor
        · constructor
          · intro h
            exact absurd h (by simp)
          · intro h
            exact absurd h hal
        · constructor
          · intro _
            exact ⟨by omega, hni⟩
          · intro _
            rfl
      · have hm : candidate p' ∈ headerAddrs l base := by
          by_contra hnm
          rw [(dfreeScan_none_iff (candidate p') l base).mpr hnm] at hscan
          exact absurd hscan (by simp)
        constructor
        · constructor
          · intro h
            exact absurd h (by simp)
          · intro h
            exact absurd h hal
        · constructor
          · intro h
            exact absurd h (by simp)
          · intro h
            exact absurd hm h.2
  refine ⟨(key p).1, (key p).2, ?_⟩
  intro q hq
  exact (key (q + 1)).1.mpr (by omega)

/-- C7 witness: `dfree` with the misaligned pointer 17 (one byte past the
16-aligned pointer 16) on the fresh heap, and the characterizations at
pointer 16. -/
theorem c7_dfree_errors_witness :
    dfree 17 0 (dinit 1048576) = .error .misalignedAddress :=
  (c7_dfree_errors 17 0 (dinit 1048576)).2.2 16 (by decide)

/-! ## Claim C10: double release is a silent no-op -/

/-- C10: for a pointer whose header is still present in the sequence and
already marked free (the double-release situation), `dfree` signals no
error and leaves the heap state completely unchanged: marking the block
free again changes nothing and the coalescing pass finds no adjacent
free pair in a reachable (hence fully coalesced) heap. -/
theorem c10_double_free (base hs : Nat) (l : List Block) (i p : Nat)
    (hbase : base % 16 = 0) (hhs : hs % 16 = 0)
    (hre : Reach base hs l) (hi : i < l.length)
    (hfree : (l.get ⟨i, hi⟩).used = false)
    (hp : p = base + blockOffset l i + HEADER_SIZE) (hlt : p < U64) :
    dfree p base l = .ok l := by
  have hdata := Reach.data16 hre hhs
  have hcand : candidate p = base + blockOffset l i := by
    have h1 := candidate_eq p (by rw [hp]; unfold HEADER_SIZE; omega) hlt
    rw [h1]
    omega
  have hoff16 : blockOffset l i % 16 = 0 := by
    unfold blockOffset
    exact sumBlocks_mod16 _ (fun b hb => hdata b (List.take_subset _ _ hb))
  have halign : ¬ candidate p % ALIGNMENT_SIZE ≠ 0 := by
    rw [hcand]
    unfold ALIGNMENT_SIZE
    omega
  have hscan := dfreeScan_at l i hi base
  have hblk : (⟨(l.get ⟨i, hi⟩).data_size, false⟩ : Block) = l.get ⟨i, hi⟩ := by
    rcases hE : l.get ⟨i, hi⟩ with ⟨dd, uu⟩
    rw [hE] at hfree
    dsimp only at hfree
    rw [hfree]
  have hmark : l.take i ++ ⟨(l.get ⟨i, hi⟩).data_size, false⟩ ::
      l.drop (i + 1) = l := by
    rw [hblk]
    rw [show l.get ⟨i, hi⟩ :: l.drop (i + 1) = l.drop i by
      rw [List.drop_eq_getElem_cons hi]; rw [List.get_eq_getElem]]
    exact List.take_append_drop i l
  unfold dfree
  rw [if_neg halign, hcand, hscan, hmark]
  show Except.ok (coalesce_blocks l) = Except.ok l
  rw [coalesce_eq_self_of_noAdjFree l (Reach.noAdjFree hre)]

/-- C10 witness: releasing the (free) initial block's payload pointer on
the fresh 1 MiB heap succeeds and changes nothing. -/
theorem c10_double_free_witness :
    dfree 16 0 (dinit 1048576) = .ok (dinit 1048576) :=
  c10_double_free 0 1048576 (dinit 1048576) 0 16 (by decide) (by decide)
    Reach.init (by decide) (by decide) (by decide) (by decide)

/-! ## Claim C8: 16-byte alignment -/

/-- C8: in every reachable heap state over a 16-aligned base and a
16-aligned extent, every block's `data_size` is a multiple of 16, every
block's starting address is a multiple of 16, and consequently every
payload pointer returned by `dalloc` is a multiple of 16. -/
theorem c8_alignment (base hs : Nat) (l : List Block)
    (hbase : base % 16 = 0) (hhs : hs % 16 = 0) (hre : Reach base hs l) :
    (∀ b ∈ l, b.data_size % 16 = 0) ∧
    (∀ i : Nat, (base + blockOffset l i) % 16 = 0) ∧
    (∀ (size p : Nat) (l' : List Block),
      dalloc size l = (some p, l') → (base + p) % 16 = 0) := by
  have hdata := Reach.data16 hre hhs
  refine ⟨hdata, ?_, ?_⟩
  · intro i
    have h16 : sumBlocks (l.take i) % 16 = 0 :=
      sumBlocks_mod16 _ (fun b hb => hdata b (List.take_subset _ _ hb))
    unfold blockOffset
    omega
  · intro size p l' hd
    obtain ⟨pre, d, post, hdec, -, -, hp, -⟩ :=
      dallocAux_some size l 0 p l' hd
    have hpre16 : sumBlocks pre % 16 = 0 :=
      sumBlocks_mod16 pre (fun b hb => hdata b (by rw [hdec]; simp [hb]))
    rw [hp]
    unfold HEADER_SIZE
    omega

/-- C8 witness: the pointer returned by `allocate(100)` on the fresh
1 MiB heap at base address 0 is 16-aligned. -/
theorem c8_alignment_witness : (0 + 16) % 16 = 0 :=
  (c8_alignment 0 1048576 (dinit 1048576) (by decide) (by decide)
      Reach.init).2.2 100 16 [⟨112, true⟩, ⟨1048432, false⟩] (by decide)

/-! ## Claim C5: the full-reclaim round trip -/

/-- C5: evaluation at the failing input.  `allocate(4294967280)`
(= `2^32 - 16`) on the fresh 1 MiB heap computes a 32-bit
`required_size` of 0, passes the fit test and returns a payload pointer;
the C code therefore carves the "new" header at offset 0 from the
selected block — i.e. on top of the selected header itself — and links
the header to itself, after which the deallocation's coalescing pass
never terminates instead of restoring a single free block. -/
theorem c5_wrap_eval :
    requiredSize 4294967280 = 0 ∧
    (dalloc 4294967280 (dinit 1048576)).1 = some 16 :=
  ⟨by decide, by decide⟩

end Dalloc
